import Mathlib

/-!
Shallow embedding of the source-location classifier and type-policy engine
of the Chromium style-checking plugin (`clang/plugins/ChromeClassTester.cpp`).

Strings are embedded as `List Char`.  The opaque host handles
(`SourceLocation`, `SourceManager`, `TagDecl`, `CXXRecordDecl`,
`DeclContext`) are embedded as records/inductives carrying exactly the
observations the translated code performs on them.  C `assert` failures are
embedded as `Option` results (`none` = assertion failure); all other code is
total.  The `realpath` filesystem call is an external oracle passed in as a
function parameter.  The code compiled under `LLVM_ON_UNIX` is the branch
embedded here.
-/

/-- Anonymous-namespace helper from the source file:
`ends_with(one, two)` is false if `two` is longer than `one`, and otherwise
compares the length-`|two|` tail of `one` against `two`. -/
def ends_with (one two : List Char) : Bool :=
  if two.length > one.length then false
  else one.drop (one.length - two.length) == two

/-- Embedding of `std::string::find(sub) != std::string::npos`: `sub` occurs
as a contiguous substring of `s` (the empty string occurs in every string). -/
def containsSub (s sub : List Char) : Bool :=
  match s with
  | [] => sub.isEmpty
  | c :: t => sub.isPrefixOf (c :: t) || containsSub t sub

/-- The enforcement-zone enumeration `ChromeClassTester::LocationType`. -/
inductive LocationType where
  | kThirdParty : LocationType
  | kBlink : LocationType
  | kChrome : LocationType
deriving DecidableEq

/-- The `chrome_checker::Options` fields consulted by this translation unit. -/
structure Options where
  no_realpath : Bool
deriving DecidableEq

/-- Observations `ClassifyLocation` makes of a `SourceLocation` through the
`SourceManager`: whether the location is in a system header, and the result
of `GetFilename` (the presumed filename of the spelling location, `none`
when the presumed location is invalid). -/
structure Loc where
  isInSystemHeader : Bool
  presumedFilename : Option (List Char)

/-- The `ChromeClassTester` object state built by the constructor. -/
structure ChromeClassTester where
  options : Options
  banned_directories : List (List Char)
  ignored_record_names : List (List Char)
  ignored_base_classes : List (List Char)

/-- The banned-directory markers inserted by `BuildBannedLists`, listed in
the sorted order in which the `std::set<std::string>` iterates them. -/
def bannedDirectoryList : List (List Char) :=
  ["/breakpad/", "/courgette/", "/frameworks/", "/gen/", "/geni/",
   "/native_client/", "/ppapi/", "/sdch/", "/testing/", "/third_party/",
   "/v8/", "/xcodebuild/"].map String.toList

/-- The ignored simple type names inserted by `BuildBannedLists`. -/
def ignoredRecordNameList : List (List Char) :=
  ["ThreadLocalBoolean", "Header", "Validators", "AutocompleteController",
   "HistoryURLProvider", "MockTransaction", "ServerFieldType",
   "TestAnimationDelegate", "PluginVersionInfo", "QuadF",
   "ViewID"].map String.toList

/-- The ignored fully-qualified base-class names inserted by
`BuildBannedLists`. -/
def ignoredBaseClassList : List (List Char) :=
  ["IPC::NoParams"].map String.toList

/-- `ChromeClassTester::BuildBannedLists`, as invoked by the constructor:
fills the three policy sets with the static lists.  It performs no
well-formedness check of any kind. -/
def BuildBannedLists (options : Options) : ChromeClassTester :=
  { options := options
    banned_directories := bannedDirectoryList
    ignored_record_names := ignoredRecordNameList
    ignored_base_classes := ignoredBaseClassList }

/-- The scratch-space sentinel filename special-cased by `ClassifyLocation`. -/
def scratchSpaceName : List Char := "<scratch space>".toList

/-- The path-normalization step of `ClassifyLocation` (the `LLVM_ON_UNIX`
branch): with `no_realpath` set, prepend a separator to the raw filename;
otherwise consult `realpath` and keep the original filename when resolution
fails. -/
def normalizePath (opts : Options) (realpathOracle : List Char → Option (List Char))
    (filename : List Char) : List Char :=
  if opts.no_realpath then '/' :: filename
  else
    match realpathOracle filename with
    | some resolved => resolved
    | none => filename

def webkitDirMarker : List Char := "/third_party/WebKit/".toList

def blinkDirMarker : List Char := "/third_party/blink/".toList

def blinkBrowserMarker : List Char := "/third_party/blink/browser/".toList

/-- The condition of the Blink special case in `ClassifyLocation`: the path
contains `/third_party/WebKit/`, or contains `/third_party/blink/` without
also containing `/third_party/blink/browser/`. -/
def blinkCondition (filename : List Char) : Bool :=
  containsSub filename webkitDirMarker ||
    (containsSub filename blinkDirMarker &&
      !containsSub filename blinkBrowserMarker)

/-- The banned-directory loop at the end of `ClassifyLocation`.  Each marker
is first checked by the two `assert`s (`front() == '/'` and
`back() == '/'`); an assertion failure is embedded as `none`.  A marker
occurring as a substring of the filename yields `kThirdParty`; exhausting
the loop yields `kChrome`. -/
def bannedDirLoop (banned : List (List Char)) (filename : List Char) :
    Option LocationType :=
  match banned with
  | [] => some LocationType.kChrome
  | d :: rest =>
    if (d.head? == some '/') && (d.getLast? == some '/') then
      if containsSub filename d then some LocationType.kThirdParty
      else bannedDirLoop rest filename
    else none

/-- `ChromeClassTester::ClassifyLocation`.  Returns `none` exactly when one
of the classification-time `assert`s in the banned-directory loop fails. -/
def ClassifyLocation (t : ChromeClassTester)
    (realpathOracle : List Char → Option (List Char)) (loc : Loc) :
    Option LocationType :=
  if loc.isInSystemHeader then some LocationType.kThirdParty
  else
    match loc.presumedFilename with
    | none => some LocationType.kThirdParty
    | some filename =>
      if filename == scratchSpaceName then some LocationType.kThirdParty
      else
        let filename := normalizePath t.options realpathOracle filename
        if blinkCondition filename then some LocationType.kBlink
        else bannedDirLoop t.banned_directories filename

/-- `ChromeClassTester::IsIgnoredType`: membership of the simple name in the
ignored-record-name set. -/
def IsIgnoredType (t : ChromeClassTester) (base_name : List Char) : Bool :=
  t.ignored_record_names.contains base_name

/-- The `dyn_cast` outcome for a `TagDecl`: a `CXXRecordDecl`, an
`EnumDecl`, or some other tag kind. -/
inductive TagKind where
  | record : TagKind
  | enumTag : TagKind
  | otherTag : TagKind
deriving DecidableEq

/-- The observations `CheckTag` makes of a `TagDecl`: its kind, its simple
name (`getNameAsString`), and its location (`getInnerLocStart`). -/
structure TagDecl where
  kind : TagKind
  name : List Char
  innerLocStart : Loc

/-- What `CheckTag` does with a declaration: return without invoking an
external check, or forward to `CheckChromeClass` / `CheckChromeEnum`
together with the computed location type. -/
inductive CheckAction where
  | noAction : CheckAction
  | checkChromeClass (location_type : LocationType) : CheckAction
  | checkChromeEnum (location_type : LocationType) : CheckAction
deriving DecidableEq

def matcherSuffix : List Char := "Matcher".toList

/-- `ChromeClassTester::CheckTag`, returning which external check (if any)
is invoked.  `none` propagates an assertion failure from
`ClassifyLocation`. -/
def CheckTag (t : ChromeClassTester)
    (realpathOracle : List Char → Option (List Char)) (tag : TagDecl) :
    Option CheckAction :=
  match ClassifyLocation t realpathOracle tag.innerLocStart with
  | none => none
  | some location_type =>
    if location_type == LocationType.kThirdParty then some CheckAction.noAction
    else
      match tag.kind with
      | TagKind.record =>
        if IsIgnoredType t tag.name then some CheckAction.noAction
        else if ends_with tag.name matcherSuffix then some CheckAction.noAction
        else some (CheckAction.checkChromeClass location_type)
      | TagKind.enumTag =>
        if IsIgnoredType t tag.name then some CheckAction.noAction
        else some (CheckAction.checkChromeEnum location_type)
      | TagKind.otherTag => some CheckAction.noAction

/-- A `CXXRecordDecl` as observed by `HasIgnoredBases`: a fully qualified
name (`getQualifiedNameAsString`) and the ordered direct base list, where
each base is the result of `getType()->getAsCXXRecordDecl()` (`none` when
the base reference does not resolve to a class-like declaration). -/
inductive CXXRecord where
  | mk (qualifiedName : List Char) (bases : List (Option CXXRecord)) : CXXRecord

def CXXRecord.qualifiedName : CXXRecord → List Char
  | CXXRecord.mk n _ => n

def CXXRecord.bases : CXXRecord → List (Option CXXRecord)
  | CXXRecord.mk _ bs => bs

mutual

/-- `ChromeClassTester::HasIgnoredBases`: scans the direct bases in order;
an unresolvable base is skipped; a resolvable base matches if its qualified
name is in the ignored set or, recursively, one of its own bases matches. -/
def HasIgnoredBases (ignored : List (List Char)) : CXXRecord → Bool
  | CXXRecord.mk _ bases => hasIgnoredBasesAux ignored bases

/-- The base-list loop of `HasIgnoredBases`. -/
def hasIgnoredBasesAux (ignored : List (List Char)) :
    List (Option CXXRecord) → Bool
  | [] => false
  | none :: rest => hasIgnoredBasesAux ignored rest
  | some b :: rest =>
    ignored.contains b.qualifiedName || HasIgnoredBases ignored b ||
      hasIgnoredBasesAux ignored rest

end

/-- Reachability through resolvable direct bases: `ReachableBase r b` holds
when `b` lies in the transitive closure of `r`'s resolvable direct bases. -/
inductive ReachableBase : CXXRecord → CXXRecord → Prop where
  | direct {r b : CXXRecord} : some b ∈ r.bases → ReachableBase r b
  | step {r m b : CXXRecord} : some m ∈ r.bases → ReachableBase m b →
      ReachableBase r b

mutual

/-- The recursion of `HasIgnoredBases` with an explicit depth bound: fuel is
consumed once per record whose base list is entered, and `none` reports fuel
exhaustion. -/
def HasIgnoredBasesFuel (ignored : List (List Char)) :
    Nat → CXXRecord → Option Bool
  | 0, _ => none
  | Nat.succ n, CXXRecord.mk _ bases => hasIgnoredBasesAuxFuel ignored n bases
termination_by n _ => (n, 0)

/-- The base-list loop of `HasIgnoredBasesFuel`. -/
def hasIgnoredBasesAuxFuel (ignored : List (List Char)) :
    Nat → List (Option CXXRecord) → Option Bool
  | _, [] => some false
  | n, none :: rest => hasIgnoredBasesAuxFuel ignored n rest
  | n, some b :: rest =>
    if ignored.contains b.qualifiedName then some true
    else
      match HasIgnoredBasesFuel ignored n b with
      | none => none
      | some true => some true
      | some false => hasIgnoredBasesAuxFuel ignored n rest
termination_by n bs => (n, bs.length + 1)

end

mutual

/-- Depth of the recursion of `HasIgnoredBases` on a record. -/
def recordDepth : CXXRecord → Nat
  | CXXRecord.mk _ bases => basesDepth bases + 1

/-- Depth of the recursion of `HasIgnoredBases` on a base list. -/
def basesDepth : List (Option CXXRecord) → Nat
  | [] => 0
  | none :: rest => basesDepth rest
  | some b :: rest => max (recordDepth b) (basesDepth rest)

end

/-- A `SourceLocation` as observed by `InImplementationFile`: each node
carries the result of `GetFilename` at that position; `spelledAt` is a
position with `isMacroID()` false (the loop stops there), and
`expandedFrom fn enclosing` is a macro-expansion result whose immediately
enclosing expansion position is `enclosing`. -/
inductive MacroChainLoc where
  | spelledAt (filename : Option (List Char)) : MacroChainLoc
  | expandedFrom (filename : Option (List Char)) (enclosing : MacroChainLoc) :
      MacroChainLoc

def ccSuffix : List Char := ".cc".toList

def cppSuffix : List Char := ".cpp".toList

def mmSuffix : List Char := ".mm".toList

/-- One iteration body of the `InImplementationFile` loop: the filename
resolved (if resolution succeeded) and carries an implementation-file
suffix. -/
def implSuffixMatch (filename : Option (List Char)) : Bool :=
  match filename with
  | none => false
  | some f =>
    ends_with f ccSuffix || ends_with f cppSuffix || ends_with f mmSuffix

/-- `ChromeClassTester::InImplementationFile`: walk the macro-expansion
chain outward from the given position, returning true as soon as a
position's presumed filename has an implementation-file suffix. -/
def InImplementationFile : MacroChainLoc → Bool
  | MacroChainLoc.spelledAt filename => implSuffixMatch filename
  | MacroChainLoc.expandedFrom filename enclosing =>
    implSuffixMatch filename || InImplementationFile enclosing

/-- The sequence of `GetFilename` results visited by the
`InImplementationFile` loop, innermost first. -/
def chainFilenames : MacroChainLoc → List (Option (List Char))
  | MacroChainLoc.spelledAt filename => [filename]
  | MacroChainLoc.expandedFrom filename enclosing =>
    filename :: chainFilenames enclosing

/-- A `DeclContext` chain as observed by `GetNamespaceImpl`: the kind of
each context (translation unit, namespace with its anonymity flag and
declared name, or any other kind) together with its parent. -/
inductive DeclContext where
  | translationUnit : DeclContext
  | namespaceContext (anonymous : Bool) (name : List Char)
      (parent : DeclContext) : DeclContext
  | otherContext (parent : DeclContext) : DeclContext

def anonymousNamespaceLabel : List Char := "<anonymous namespace>".toList

/-- The display name `GetNamespaceImpl` streams for a namespace context:
the sentinel label for an anonymous namespace, its declared name
otherwise. -/
def namespaceDisplayName (anonymous : Bool) (name : List Char) : List Char :=
  if anonymous then anonymousNamespaceLabel else name

/-- `ChromeClassTester::GetNamespaceImpl`: ascend the context chain; at the
translation unit return the candidate; at a namespace continue with that
namespace's display name as the new candidate (overwriting the old one); at
any other context kind continue with the candidate unchanged. -/
def GetNamespaceImpl : DeclContext → List Char → List Char
  | DeclContext.translationUnit, candidate => candidate
  | DeclContext.namespaceContext anonymous name parent, _ =>
    GetNamespaceImpl parent (namespaceDisplayName anonymous name)
  | DeclContext.otherContext parent, candidate =>
    GetNamespaceImpl parent candidate

/-- `ChromeClassTester::GetNamespace`: start the walk at the declaration's
context with the empty candidate. -/
def GetNamespace (context : DeclContext) : List Char :=
  GetNamespaceImpl context []

/-- The namespace contexts in a chain, innermost first, each as its
anonymity flag and declared name. -/
def enclosingNamespaces : DeclContext → List (Bool × List Char)
  | DeclContext.translationUnit => []
  | DeclContext.namespaceContext anonymous name parent =>
    (anonymous, name) :: enclosingNamespaces parent
  | DeclContext.otherContext parent => enclosingNamespaces parent

/-! ## Theorems -/

/-- C2: for every position in system/third-party header space, or with an
unresolvable presumed filename, or whose resolved filename is the scratch
sentinel `<scratch space>`, `ClassifyLocation` returns `kThirdParty` (a
`some` result, so no assertion failure is surfaced), for any tester state
and any realpath oracle. -/
theorem classifyLocation_failsafe_thirdParty (t : ChromeClassTester)
    (rp : List Char → Option (List Char)) (loc : Loc)
    (h : loc.isInSystemHeader = true ∨ loc.presumedFilename = none ∨
      loc.presumedFilename = some scratchSpaceName) :
    ClassifyLocation t rp loc = some LocationType.kThirdParty := by
  rcases h with h | h | h
  · simp [ClassifyLocation, h]
  · cases hs : loc.isInSystemHeader <;> simp [ClassifyLocation, hs, h]
  · cases hs : loc.isInSystemHeader <;> simp [ClassifyLocation, hs, h]

theorem classifyLocation_failsafe_thirdParty_witness :
    (Loc.mk true none).isInSystemHeader = true ∧
    ClassifyLocation (BuildBannedLists ⟨true⟩) (fun _ => none) (Loc.mk true none) =
      some LocationType.kThirdParty :=
  ⟨rfl, classifyLocation_failsafe_thirdParty _ _ _ (Or.inl rfl)⟩

/-- C6: `InImplementationFile` returns true exactly when some position in
the macro-expansion chain resolves to a filename with one of the three
implementation-file suffixes; in particular it is true when the outermost
use site is a `.cc` file even though the spelling location is a header, and
false when every resolved filename in the chain is a header. -/
theorem inImplementationFile_iff :
    (∀ l : MacroChainLoc, InImplementationFile l = true ↔
      ∃ f, some f ∈ chainFilenames l ∧
        (ends_with f ccSuffix = true ∨ ends_with f cppSuffix = true ∨
          ends_with f mmSuffix = true)) ∧
    InImplementationFile
      (MacroChainLoc.expandedFrom (some "base/macros.h".toList)
        (MacroChainLoc.spelledAt (some "chrome/browser/foo.cc".toList))) = true ∧
    InImplementationFile
      (MacroChainLoc.expandedFrom (some "base/macros.h".toList)
        (MacroChainLoc.spelledAt (some "chrome/browser/foo.h".toList))) = false := by
  refine ⟨?_, by decide, by decide⟩
  intro l
  induction l with
  | spelledAt fn =>
    cases fn <;>
      simp [InImplementationFile, chainFilenames, implSuffixMatch,
        Bool.or_eq_true, or_assoc]
  | expandedFrom fn enclosing ih =>
    cases fn with
    | none =>
      simp only [InImplementationFile, chainFilenames, implSuffixMatch,
        Bool.false_or, ih, List.mem_cons]
      constructor
      · rintro ⟨f, hf, hsuf⟩; exact ⟨f, Or.inr hf, hsuf⟩
      · rintro ⟨f, hf | hf, hsuf⟩
        · cases hf
        · exact ⟨f, hf, hsuf⟩
    | some g =>
      simp only [InImplementationFile, chainFilenames, implSuffixMatch,
        Bool.or_eq_true, ih, List.mem_cons]
      constructor
      · rintro (hsuf | ⟨f, hf, hsuf⟩)
        · exact ⟨g, Or.inl rfl, by tauto⟩
        · exact ⟨f, Or.inr hf, hsuf⟩
      · rintro ⟨f, hf | hf, hsuf⟩
        · cases hf; tauto
        · exact Or.inr ⟨f, hf, hsuf⟩

/-- C7: `GetNamespaceImpl` returns the display name of the outermost
enclosing namespace context when one exists, and the initial candidate
otherwise — never a concatenation of nested namespace names. -/
theorem getNamespaceImpl_outermost (ctx : DeclContext) (candidate : List Char) :
    GetNamespaceImpl ctx candidate =
      ((enclosingNamespaces ctx).getLast?.map
        (fun p => namespaceDisplayName p.1 p.2)).getD candidate := by
  induction ctx generalizing candidate with
  | translationUnit => simp [GetNamespaceImpl, enclosingNamespaces]
  | namespaceContext a n p ih =>
    simp only [GetNamespaceImpl, enclosingNamespaces, ih]
    cases h : enclosingNamespaces p with
    | nil => simp
    | cons q qs =>
      rw [List.getLast?_cons_cons]
      cases hx : (q :: qs).getLast? with
      | none => simp [List.getLast?] at hx
      | some x => simp
  | otherContext p ih =>
    simp only [GetNamespaceImpl, enclosingNamespaces, ih]

/-- C1: given the location's classification, `CheckTag` invokes no external
check for a `kThirdParty` location; it forwards a class-like declaration to
`CheckChromeClass` exactly when the location is not `kThirdParty`, the
simple name is not ignored and the name does not end in `Matcher`; it
forwards an enum to `CheckChromeEnum` exactly when the location is not
`kThirdParty` and the simple name is not ignored; and a record whose name
ends in `Matcher` triggers no external check for any ignore-list state. -/
theorem checkTag_dispatch (t : ChromeClassTester)
    (rp : List Char → Option (List Char)) (tag : TagDecl)
    (lt : LocationType)
    (h : ClassifyLocation t rp tag.innerLocStart = some lt) :
    (lt = LocationType.kThirdParty →
      CheckTag t rp tag = some CheckAction.noAction) ∧
    (tag.kind = TagKind.record →
      (CheckTag t rp tag = some (CheckAction.checkChromeClass lt) ↔
        lt ≠ LocationType.kThirdParty ∧ IsIgnoredType t tag.name = false ∧
          ends_with tag.name matcherSuffix = false)) ∧
    (tag.kind = TagKind.enumTag →
      (CheckTag t rp tag = some (CheckAction.checkChromeEnum lt) ↔
        lt ≠ LocationType.kThirdParty ∧ IsIgnoredType t tag.name = false)) ∧
    (tag.kind = TagKind.record → ends_with tag.name matcherSuffix = true →
      CheckTag t rp tag = some CheckAction.noAction) := by
  cases lt <;> cases hk : tag.kind <;>
    cases hI : IsIgnoredType t tag.name <;>
    cases hM : ends_with tag.name matcherSuffix <;>
      simp [CheckTag, h, hk, hI, hM]

theorem checkTag_dispatch_witness :
    ClassifyLocation (BuildBannedLists ⟨true⟩) (fun _ => none)
      (Loc.mk false (some "chrome/browser/foo.h".toList)) =
        some LocationType.kChrome ∧
    CheckTag (BuildBannedLists ⟨true⟩) (fun _ => none)
      (TagDecl.mk TagKind.record "FooMatcher".toList
        (Loc.mk false (some "chrome/browser/foo.h".toList))) =
      some CheckAction.noAction := by
  refine ⟨by decide, ?_⟩
  exact (checkTag_dispatch (BuildBannedLists ⟨true⟩) (fun _ => none)
    (TagDecl.mk TagKind.record "FooMatcher".toList
      (Loc.mk false (some "chrome/browser/foo.h".toList)))
    LocationType.kChrome (by decide)).2.2.2 rfl (by decide)

/-- Helper: a banned-directory loop over markers that all begin and end with
the separator never fails its assertions; it returns `kThirdParty` when some
marker occurs in the filename and `kChrome` otherwise. -/
theorem bannedDirLoop_wellFormed (banned : List (List Char))
    (filename : List Char)
    (hwf : ∀ d ∈ banned, d.head? = some '/' ∧ d.getLast? = some '/') :
    ((∃ d ∈ banned, containsSub filename d = true) →
      bannedDirLoop banned filename = some LocationType.kThirdParty) ∧
    ((∀ d ∈ banned, containsSub filename d = false) →
      bannedDirLoop banned filename = some LocationType.kChrome) := by
  induction banned with
  | nil => simp [bannedDirLoop]
  | cons d rest ih =>
    have hd := hwf d (List.mem_cons_self d rest)
    have hrest := ih fun d' hd' => hwf d' (List.mem_cons_of_mem d hd')
    constructor
    · rintro ⟨d', hd', hc⟩
      rcases List.mem_cons.mp hd' with rfl | hd'
      · simp [bannedDirLoop, hd.1, hd.2, hc]
      · by_cases hcd : containsSub filename d = true
        · simp [bannedDirLoop, hd.1, hd.2, hcd]
        · simp only [bannedDirLoop, hd.1, hd.2, beq_self_eq_true,
            Bool.and_self, if_true]
          rw [if_neg (by simpa using hcd)]
          exact hrest.1 ⟨d', hd', hc⟩
    · intro hnone
      have hcd := hnone d (List.mem_cons_self d rest)
      simp only [bannedDirLoop, hd.1, hd.2, beq_self_eq_true, Bool.and_self,
        if_true]
      rw [if_neg (by simp [hcd])]
      exact hrest.2 fun d' hd' => hnone d' (List.mem_cons_of_mem d hd')

/-- Helper: `containsSub` is genuine contiguous-substring occurrence: it
holds exactly when the haystack splits as prefix ++ needle ++ suffix. -/
theorem containsSub_iff_append (s sub : List Char) :
    containsSub s sub = true ↔ ∃ pre post, s = pre ++ sub ++ post := by
  induction s with
  | nil =>
    rw [containsSub]
    cases sub with
    | nil => simp
    | cons c t => simp
  | cons c t ih =>
    rw [containsSub]
    simp only [Bool.or_eq_true, ih]
    constructor
    · rintro (hp | ⟨pre, post, rfl⟩)
      · obtain ⟨post, hpost⟩ := List.isPrefixOf_iff_prefix.mp hp
        exact ⟨[], post, by simpa using hpost.symm⟩
      · exact ⟨c :: pre, post, rfl⟩
    · rintro ⟨pre, post, heq⟩
      cases pre with
      | nil =>
        exact Or.inl (List.isPrefixOf_iff_prefix.mpr
          ⟨post, by simpa using heq.symm⟩)
      | cons p ps =>
        injection heq with h1 h2
        exact Or.inr ⟨ps, post, h2⟩

/-- C4: for a location that reaches the banned-directory loop (not a system
header, resolvable filename, not scratch space, Blink rule not matching),
the built policy classifies the normalized path `kThirdParty` exactly when
some banned marker — each stored with its leading and trailing separator,
hence matched only as a full, separator-bounded path component — occurs in
the path, and `kChrome` when no marker occurs; marker occurrence is genuine
substring occurrence (the path splits around the separator-bounded
marker). -/
theorem classifyLocation_banned_component (opts : Options)
    (rp : List Char → Option (List Char)) (loc : Loc) (f : List Char)
    (hsys : loc.isInSystemHeader = false)
    (hf : loc.presumedFilename = some f)
    (hscratch : f ≠ scratchSpaceName)
    (hblink : blinkCondition (normalizePath opts rp f) = false) :
    ((∃ d ∈ bannedDirectoryList,
        containsSub (normalizePath opts rp f) d = true) →
      ClassifyLocation (BuildBannedLists opts) rp loc =
        some LocationType.kThirdParty) ∧
    ((∀ d ∈ bannedDirectoryList,
        containsSub (normalizePath opts rp f) d = false) →
      ClassifyLocation (BuildBannedLists opts) rp loc =
        some LocationType.kChrome) ∧
    (∀ d s : List Char, containsSub s d = true ↔
      ∃ pre post, s = pre ++ d ++ post) := by
  have hwf : ∀ d ∈ bannedDirectoryList,
      d.head? = some '/' ∧ d.getLast? = some '/' := by decide
  have hloop := bannedDirLoop_wellFormed bannedDirectoryList
    (normalizePath opts rp f) hwf
  have hred : ClassifyLocation (BuildBannedLists opts) rp loc =
      bannedDirLoop bannedDirectoryList (normalizePath opts rp f) := by
    simp [ClassifyLocation, hsys, hf, BuildBannedLists,
      beq_eq_false_iff_ne.mpr hscratch, hblink]
  exact ⟨by rw [hred]; exact hloop.1, by rw [hred]; exact hloop.2,
    fun d s => containsSub_iff_append s d⟩

theorem classifyLocation_banned_component_witness :
    ClassifyLocation (BuildBannedLists ⟨false⟩) some
      (Loc.mk false (some "/third_party/foo/bar.h".toList)) =
        some LocationType.kThirdParty ∧
    ClassifyLocation (BuildBannedLists ⟨false⟩) some
      (Loc.mk false (some "/my_third_party_extra/bar.h".toList)) =
        some LocationType.kChrome := by
  constructor
  · exact (classifyLocation_banned_component ⟨false⟩ some
      (Loc.mk false (some "/third_party/foo/bar.h".toList))
      "/third_party/foo/bar.h".toList rfl rfl (by decide) (by decide)).1
      ⟨"/third_party/".toList, by decide, by decide⟩
  · exact (classifyLocation_banned_component ⟨false⟩ some
      (Loc.mk false (some "/my_third_party_extra/bar.h".toList))
      "/my_third_party_extra/bar.h".toList rfl rfl (by decide) (by decide)).2.1
      (by decide)

/-- Helper: the banned-directory loop never produces `kBlink`. -/
theorem bannedDirLoop_ne_kBlink (banned : List (List Char))
    (filename : List Char) :
    bannedDirLoop banned filename ≠ some LocationType.kBlink := by
  induction banned with
  | nil => simp [bannedDirLoop]
  | cons d rest ih =>
    by_cases h1 : ((d.head? == some '/') && (d.getLast? == some '/')) = true
    · by_cases h2 : containsSub filename d = true <;>
        simp [bannedDirLoop, h1, h2, ih]
    · rw [bannedDirLoop, if_neg h1]
      simp

/-- C3 counterexample: the claim "a normalized path containing the
browser-process sub-marker must not be classified Blink" fails on the code:
a path containing both `/third_party/WebKit/` and
`/third_party/blink/browser/` contains the sub-marker yet is classified
`kBlink`, because the WebKit disjunct of the condition is checked without
the sub-marker exclusion. -/
theorem classifyLocation_blink_counterexample :
    containsSub
      ('/' :: "third_party/WebKit/third_party/blink/browser/Foo.h".toList)
      blinkBrowserMarker = true ∧
    ClassifyLocation (BuildBannedLists ⟨true⟩) (fun _ => none)
      (Loc.mk false
        (some "third_party/WebKit/third_party/blink/browser/Foo.h".toList)) =
      some LocationType.kBlink := by
  constructor <;> decide

/-- C3 (amended): for a location that passes the preliminary checks, the
classifier returns `kBlink` when the normalized path contains
`/third_party/WebKit/`, or contains `/third_party/blink/` but not
`/third_party/blink/browser/`; a path containing the browser sub-marker but
not the WebKit marker is never classified `kBlink`; and the Blink condition
does not hold for `/third_party/blink/browser/Foo.h` (that path falls
through to the banned-directory rules). -/
theorem classifyLocation_blink_rule (opts : Options)
    (rp : List Char → Option (List Char)) (loc : Loc) (f : List Char)
    (hsys : loc.isInSystemHeader = false)
    (hf : loc.presumedFilename = some f)
    (hscratch : f ≠ scratchSpaceName) :
    ((containsSub (normalizePath opts rp f) webkitDirMarker = true ∨
        (containsSub (normalizePath opts rp f) blinkDirMarker = true ∧
          containsSub (normalizePath opts rp f) blinkBrowserMarker = false)) →
      ClassifyLocation (BuildBannedLists opts) rp loc =
        some LocationType.kBlink) ∧
    (containsSub (normalizePath opts rp f) blinkBrowserMarker = true →
      containsSub (normalizePath opts rp f) webkitDirMarker = false →
      ClassifyLocation (BuildBannedLists opts) rp loc ≠
        some LocationType.kBlink) ∧
    blinkCondition ('/' :: "third_party/blink/browser/Foo.h".toList) = false := by
  refine ⟨?_, ?_, by decide⟩
  · intro h
    have hcond : blinkCondition (normalizePath opts rp f) = true := by
      rcases h with h | ⟨h1, h2⟩
      · simp [blinkCondition, h]
      · simp [blinkCondition, h1, h2]
    simp [ClassifyLocation, BuildBannedLists, hsys, hf,
      beq_eq_false_iff_ne.mpr hscratch, hcond]
  · intro hbr hwk
    have hcond : blinkCondition (normalizePath opts rp f) = false := by
      simp [blinkCondition, hbr, hwk]
    simp only [ClassifyLocation, BuildBannedLists, hsys, Bool.false_eq_true,
      if_false, hf, beq_eq_false_iff_ne.mpr hscratch, hcond]
    exact bannedDirLoop_ne_kBlink _ _

theorem classifyLocation_blink_rule_witness :
    ClassifyLocation (BuildBannedLists ⟨true⟩) (fun _ => none)
      (Loc.mk false (some "third_party/WebKit/Source/core/Foo.h".toList)) =
      some LocationType.kBlink ∧
    ClassifyLocation (BuildBannedLists ⟨true⟩) (fun _ => none)
      (Loc.mk false (some "third_party/blink/browser/Foo.h".toList)) ≠
      some LocationType.kBlink := by
  constructor
  · exact (classifyLocation_blink_rule ⟨true⟩ (fun _ => none)
      (Loc.mk false (some "third_party/WebKit/Source/core/Foo.h".toList))
      "third_party/WebKit/Source/core/Foo.h".toList rfl rfl (by decide)).1
      (Or.inl (by decide))
  · exact (classifyLocation_blink_rule ⟨true⟩ (fun _ => none)
      (Loc.mk false (some "third_party/blink/browser/Foo.h".toList))
      "third_party/blink/browser/Foo.h".toList rfl rfl (by decide)).2.1
      (by decide) (by decide)

/-- C10: every banned-directory marker inserted by `BuildBannedLists` begins
and ends with `/`, and consequently `ClassifyLocation` over the policy
actually constructed never fails a classification-time assertion: it
returns `some` location type on every input. -/
theorem buildBannedLists_assertions_never_fail :
    (∀ d ∈ bannedDirectoryList, d.head? = some '/' ∧ d.getLast? = some '/') ∧
    ∀ (opts : Options) (rp : List Char → Option (List Char)) (loc : Loc),
      ∃ lt : LocationType,
        ClassifyLocation (BuildBannedLists opts) rp loc = some lt := by
  have hwf : ∀ d ∈ bannedDirectoryList,
      d.head? = some '/' ∧ d.getLast? = some '/' := by decide
  refine ⟨hwf, ?_⟩
  intro opts rp loc
  cases hs : loc.isInSystemHeader with
  | true => exact ⟨LocationType.kThirdParty, by simp [ClassifyLocation, hs]⟩
  | false =>
    cases hp : loc.presumedFilename with
    | none => exact ⟨LocationType.kThirdParty, by simp [ClassifyLocation, hs, hp]⟩
    | some f =>
      by_cases hsc : f = scratchSpaceName
      · exact ⟨LocationType.kThirdParty, by simp [ClassifyLocation, hs, hp, hsc]⟩
      · cases hb : blinkCondition (normalizePath opts rp f) with
        | true => exact ⟨LocationType.kBlink,
            by simp [ClassifyLocation, BuildBannedLists, hs, hp,
              beq_eq_false_iff_ne.mpr hsc, hb]⟩
        | false =>
          have hloop := bannedDirLoop_wellFormed bannedDirectoryList
            (normalizePath opts rp f) hwf
          by_cases hc : ∃ d ∈ bannedDirectoryList,
              containsSub (normalizePath opts rp f) d = true
          · exact ⟨LocationType.kThirdParty, by
              simp only [ClassifyLocation, BuildBannedLists, hs,
                Bool.false_eq_true, if_false, hp,
                beq_eq_false_iff_ne.mpr hsc, hb]
              exact hloop.1 hc⟩
          · refine ⟨LocationType.kChrome, ?_⟩
            simp only [ClassifyLocation, BuildBannedLists, hs,
              Bool.false_eq_true, if_false, hp,
              beq_eq_false_iff_ne.mpr hsc, hb]
            push_neg at hc
            exact hloop.2 fun d hd => by
              have := hc d hd
              simpa using this

/-- C8 counterexample: the well-formedness assertion is evaluated at
classification time, not at policy-construction time.  `BuildBannedLists`
(the only construction step) performs no check — it returns its state
outright — while a classification over a state holding a marker that lacks
its leading separator fails the assertion inside `ClassifyLocation`'s
banned-directory loop (result `none`), refuting the claim that the
assertion is checked when the lists are built and never at classification
time. -/
theorem assert_checked_at_classification_counterexample :
    ClassifyLocation
      (ChromeClassTester.mk ⟨true⟩ ["third_party/".toList] [] [])
      (fun _ => none) (Loc.mk false (some "a/b.h".toList)) = none := by
  decide

/-- C8 (amended): the marker well-formedness assertions live inside
`ClassifyLocation`'s banned-directory loop and are evaluated during
classification: a state whose markers all begin and end with `/` never
yields the assertion-failure result, and a state whose first marker is
malformed yields it on any location that reaches the loop.
`BuildBannedLists` itself checks nothing. -/
theorem assert_checked_at_classification_time (t : ChromeClassTester)
    (rp : List Char → Option (List Char)) (loc : Loc) (f d : List Char)
    (rest : List (List Char)) :
    ((∀ d' ∈ t.banned_directories,
        d'.head? = some '/' ∧ d'.getLast? = some '/') →
      ClassifyLocation t rp loc ≠ none) ∧
    (loc.isInSystemHeader = false → loc.presumedFilename = some f →
      f ≠ scratchSpaceName →
      blinkCondition (normalizePath t.options rp f) = false →
      t.banned_directories = d :: rest →
      ¬(d.head? = some '/' ∧ d.getLast? = some '/') →
      ClassifyLocation t rp loc = none) := by
  constructor
  · intro hwf
    cases hs : loc.isInSystemHeader with
    | true => simp [ClassifyLocation, hs]
    | false =>
      cases hp : loc.presumedFilename with
      | none => simp [ClassifyLocation, hs, hp]
      | some f' =>
        by_cases hsc : f' = scratchSpaceName
        · simp [ClassifyLocation, hs, hp, hsc]
        · cases hb : blinkCondition (normalizePath t.options rp f') with
          | true => simp [ClassifyLocation, hs, hp,
              beq_eq_false_iff_ne.mpr hsc, hb]
          | false =>
            simp only [ClassifyLocation, hs, Bool.false_eq_true, if_false,
              hp, beq_eq_false_iff_ne.mpr hsc, hb]
            by_cases hc : ∃ d' ∈ t.banned_directories,
                containsSub (normalizePath t.options rp f') d' = true
            · rw [(bannedDirLoop_wellFormed _ _ hwf).1 hc]
              simp
            · push_neg at hc
              rw [(bannedDirLoop_wellFormed _ _ hwf).2
                fun d' hd' => by simpa using hc d' hd']
              simp
  · intro hs hp hsc hb hbd hmal
    have hcond : ((d.head? == some '/') && (d.getLast? == some '/')) = false := by
      by_cases h1 : d.head? = some '/'
      · by_cases h2 : d.getLast? = some '/'
        · exact absurd ⟨h1, h2⟩ hmal
        · simp [beq_eq_false_iff_ne.mpr h2]
      · simp [beq_eq_false_iff_ne.mpr h1]
    simp only [ClassifyLocation, hs, Bool.false_eq_true, if_false, hp,
      beq_eq_false_iff_ne.mpr hsc, hb, hbd]
    rw [bannedDirLoop, if_neg (by simp [hcond])]

theorem assert_checked_at_classification_time_witness :
    ClassifyLocation (BuildBannedLists ⟨true⟩) (fun _ => none)
      (Loc.mk false (some "a/b.h".toList)) ≠ none ∧
    ClassifyLocation
      (ChromeClassTester.mk ⟨true⟩ ["testing/".toList] [] [])
      (fun _ => none) (Loc.mk false (some "a/b.h".toList)) = none := by
  constructor
  · exact (assert_checked_at_classification_time (BuildBannedLists ⟨true⟩)
      (fun _ => none) (Loc.mk false (some "a/b.h".toList)) [] [] []).1
      (by decide)
  · exact (assert_checked_at_classification_time
      (ChromeClassTester.mk ⟨true⟩ ["testing/".toList] [] [])
      (fun _ => none) (Loc.mk false (some "a/b.h".toList))
      "a/b.h".toList "testing/".toList []).2 rfl rfl (by decide) (by decide)
      rfl (by decide)

/-- Helper: `List.contains` agrees with list membership for qualified
names. -/
theorem nameContains_iff_mem (l : List (List Char)) (a : List Char) :
    l.contains a = true ↔ a ∈ l :=
  List.elem_iff

/-- Helper: unfolding of `ReachableBase` through one base level. -/
theorem reachableBase_iff_step (r b : CXXRecord) :
    ReachableBase r b ↔
      ∃ m, some m ∈ r.bases ∧ (b = m ∨ ReachableBase m b) := by
  constructor
  · intro h
    cases h with
    | direct hm => exact ⟨b, hm, Or.inl rfl⟩
    | step hm hr => exact ⟨_, hm, Or.inr hr⟩
  · rintro ⟨m, hm, rfl | hr⟩
    · exact ReachableBase.direct hm
    · exact ReachableBase.step hm hr

/-- Helper: simultaneous characterization of `HasIgnoredBases` and its
base-list loop, by strong induction on size. -/
theorem hasIgnoredBases_core (ignored : List (List Char)) : ∀ n : Nat,
    (∀ bs : List (Option CXXRecord), sizeOf bs ≤ n →
      (hasIgnoredBasesAux ignored bs = true ↔
        ∃ b m, some m ∈ bs ∧ (b = m ∨ ReachableBase m b) ∧
          b.qualifiedName ∈ ignored)) ∧
    (∀ r : CXXRecord, sizeOf r ≤ n →
      (HasIgnoredBases ignored r = true ↔
        ∃ b, ReachableBase r b ∧ b.qualifiedName ∈ ignored)) := by
  intro n
  induction n using Nat.strong_induction_on with
  | _ n ih =>
    constructor
    · intro bs hbs
      cases bs with
      | nil =>
        rw [hasIgnoredBasesAux]
        simp
      | cons ob rest =>
        have hrestlt : sizeOf rest < n :=
          lt_of_lt_of_le (by simp_arith) hbs
        have ihrest := (ih (sizeOf rest) hrestlt).1 rest (le_refl _)
        cases ob with
        | none =>
          rw [hasIgnoredBasesAux, ihrest]
          constructor
          · rintro ⟨b, m, hm, h⟩
            exact ⟨b, m, List.mem_cons_of_mem _ hm, h⟩
          · rintro ⟨b, m, hm, h⟩
            rcases List.mem_cons.mp hm with heq | hm'
            · exact absurd heq (by simp)
            · exact ⟨b, m, hm', h⟩
        | some b =>
          have hblt : sizeOf b < n :=
            lt_of_lt_of_le
              (by simp only [List.cons.sizeOf_spec, Option.some.sizeOf_spec]
                  omega) hbs
          have ihb := (ih (sizeOf b) hblt).2 b (le_refl _)
          rw [hasIgnoredBasesAux]
          simp only [Bool.or_eq_true]
          constructor
          · rintro ((hc | hh) | hr)
            · exact ⟨b, b, List.mem_cons_self _ _, Or.inl rfl,
                (nameContains_iff_mem _ _).mp hc⟩
            · obtain ⟨b', hreach, hin⟩ := ihb.mp hh
              exact ⟨b', b, List.mem_cons_self _ _, Or.inr hreach, hin⟩
            · obtain ⟨b', m, hm, h⟩ := ihrest.mp hr
              exact ⟨b', m, List.mem_cons_of_mem _ hm, h⟩
          · rintro ⟨b', m, hm, hbm, hin⟩
            rcases List.mem_cons.mp hm with heq | hm'
            · have hmb : m = b := by injection heq
              subst hmb
              rcases hbm with rfl | hreach
              · exact Or.inl (Or.inl ((nameContains_iff_mem _ _).mpr hin))
              · exact Or.inl (Or.inr (ihb.mpr ⟨b', hreach, hin⟩))
            · exact Or.inr (ihrest.mpr ⟨b', m, hm', hbm, hin⟩)
    · intro r hr
      cases r with
      | mk nm bases =>
        have hbaseslt : sizeOf bases < n :=
          lt_of_lt_of_le (by simp_arith) hr
        have ihb := (ih (sizeOf bases) hbaseslt).1 bases (le_refl _)
        rw [HasIgnoredBases, ihb]
        constructor
        · rintro ⟨b, m, hm, hbm, hin⟩
          refine ⟨b, (reachableBase_iff_step _ _).mpr ⟨m, ?_, hbm⟩, hin⟩
          simpa [CXXRecord.bases] using hm
        · rintro ⟨b, hreach, hin⟩
          obtain ⟨m, hm, hbm⟩ := (reachableBase_iff_step _ _).mp hreach
          exact ⟨b, m, by simpa [CXXRecord.bases] using hm, hbm, hin⟩

/-- C5: `HasIgnoredBases` returns true exactly when some class in the
transitive closure of the record's resolvable direct bases has its fully
qualified name in the ignored set (unresolvable base references contribute
nothing); in particular it is false for a record with no bases, and true at
depth two in the scenario `Derived : Middle`, `Middle : IPC::NoParams`
with `IPC::NoParams` ignored. -/
theorem hasIgnoredBases_iff :
    (∀ (ignored : List (List Char)) (r : CXXRecord),
      HasIgnoredBases ignored r = true ↔
        ∃ b, ReachableBase r b ∧ b.qualifiedName ∈ ignored) ∧
    (∀ (ignored : List (List Char)) (nm : List Char),
      HasIgnoredBases ignored (CXXRecord.mk nm []) = false) ∧
    HasIgnoredBases ignoredBaseClassList
      (CXXRecord.mk "Derived".toList
        [some (CXXRecord.mk "Middle".toList
          [some (CXXRecord.mk "IPC::NoParams".toList [])])]) = true := by
  refine ⟨?_, ?_, by decide⟩
  · intro ignored r
    exact (hasIgnoredBases_core ignored (sizeOf r)).2 r (le_refl _)
  · intro ignored nm
    rw [HasIgnoredBases, hasIgnoredBasesAux]

/-- Helper: with fuel at least the recursion depth, the fuel-bounded
version of `HasIgnoredBases` computes the same answer as the total one. -/
theorem hasIgnoredBasesFuel_core (ignored : List (List Char)) : ∀ n : Nat,
    (∀ r : CXXRecord, recordDepth r ≤ n →
      HasIgnoredBasesFuel ignored n r = some (HasIgnoredBases ignored r)) ∧
    (∀ bs : List (Option CXXRecord), basesDepth bs ≤ n →
      hasIgnoredBasesAuxFuel ignored n bs =
        some (hasIgnoredBasesAux ignored bs)) := by
  intro n
  induction n using Nat.strong_induction_on with
  | _ n ih =>
    have hrec : ∀ r : CXXRecord, recordDepth r ≤ n →
        HasIgnoredBasesFuel ignored n r = some (HasIgnoredBases ignored r) := by
      intro r hle
      cases r with
      | mk nm bases =>
        rw [recordDepth] at hle
        obtain ⟨m, rfl⟩ : ∃ m, n = m + 1 := ⟨n - 1, by omega⟩
        have hbs := (ih m (by omega)).2 bases (by omega)
        rw [HasIgnoredBasesFuel, HasIgnoredBases, hbs]
    refine ⟨hrec, ?_⟩
    intro bs
    induction bs with
    | nil =>
      intro _
      rw [hasIgnoredBasesAuxFuel, hasIgnoredBasesAux]
    | cons ob rest ihl =>
      intro hle
      cases ob with
      | none =>
        rw [basesDepth] at hle
        rw [hasIgnoredBasesAuxFuel, hasIgnoredBasesAux]
        exact ihl hle
      | some b =>
        rw [basesDepth] at hle
        have hb := hrec b (le_trans (le_max_left _ _) hle)
        have hrest := ihl (le_trans (le_max_right _ _) hle)
        rw [hasIgnoredBasesAuxFuel, hasIgnoredBasesAux, hb]
        cases hc : ignored.contains b.qualifiedName with
        | true => simp
        | false =>
          cases hHas : HasIgnoredBases ignored b <;> simp [hHas, hrest]

/-- C9: the recursion of `HasIgnoredBases` terminates on every record: for
each input there is a finite depth bound under which the fuel-limited
version of the same recursion completes and returns the value of
`HasIgnoredBases` (the base-class data is inductively built, hence
acyclic). -/
theorem hasIgnoredBases_terminates (ignored : List (List Char))
    (r : CXXRecord) :
    ∃ n : Nat,
      HasIgnoredBasesFuel ignored n r = some (HasIgnoredBases ignored r) :=
  ⟨recordDepth r,
    (hasIgnoredBasesFuel_core ignored (recordDepth r)).1 r (le_refl _)⟩

theorem hasIgnoredBases_iff_witness :
    HasIgnoredBases ignoredBaseClassList (CXXRecord.mk "Foo".toList []) =
      false :=
  hasIgnoredBases_iff.2.1 ignoredBaseClassList "Foo".toList

theorem inImplementationFile_iff_witness :
    InImplementationFile (MacroChainLoc.spelledAt (some "a/b.cc".toList)) =
      true :=
  (inImplementationFile_iff.1 _).mpr
    ⟨"a/b.cc".toList, by decide, Or.inl (by decide)⟩

theorem getNamespaceImpl_outermost_witness :
    GetNamespaceImpl
      (DeclContext.namespaceContext false "inner".toList
        (DeclContext.namespaceContext false "outer".toList
          DeclContext.translationUnit)) [] = "outer".toList := by
  rw [getNamespaceImpl_outermost]
  decide

theorem hasIgnoredBases_terminates_witness :
    ∃ n : Nat,
      HasIgnoredBasesFuel ignoredBaseClassList n
          (CXXRecord.mk "A".toList []) =
        some (HasIgnoredBases ignoredBaseClassList
          (CXXRecord.mk "A".toList [])) :=
  hasIgnoredBases_terminates ignoredBaseClassList (CXXRecord.mk "A".toList [])

theorem buildBannedLists_assertions_never_fail_witness :
    ∃ lt : LocationType,
      ClassifyLocation (BuildBannedLists ⟨true⟩) (fun _ => none)
        (Loc.mk false (some "a/b.h".toList)) = some lt :=
  buildBannedLists_assertions_never_fail.2 ⟨true⟩ (fun _ => none)
    (Loc.mk false (some "a/b.h".toList))
